import Mathlib

/- Verification development for the residual-map anomaly-detection pipeline.

   The development shallowly embeds the image operations of
   processing/cv.py (threshold_images, filter_median_images, label_images),
   the calibration helpers of inspection.py (get_max_area, get_threshold_min,
   get_area_size_counts_multiple_thresholds) and the classification and
   scoring code of test.py (is_defective, the TPR/TNR block of main).

   Images are batches of byte-valued pixel grids.  A pixel value is a Nat
   (the uint8 range 0..255 in all intended inputs); a threshold is an Int,
   since the Python callers may pass any integer.  cv2.threshold with
   THRESH_BINARY maps a pixel strictly greater than the threshold to the
   maxval 255 and every other pixel to 0. -/

/-- An image: a list of rows of pixel values. -/
abbrev Image : Type := List (List Nat)

/-- A batch of images, as the 3-D arrays handled by the scripts. -/
abbrev Batch : Type := List Image

/-- Pixel rule of cv2.threshold with THRESH_BINARY: dst is maxval 255 when
src is strictly greater than the threshold, else 0. -/
def thPixel (threshold : Int) (v : Nat) : Nat :=
  if (v : Int) > threshold then 255 else 0

/-- Per-image thresholding, the loop body of threshold_images. -/
def thImage (threshold : Int) (img : Image) : Image :=
  img.map (fun row => row.map (thPixel threshold))

/-- Embedding of threshold_images (processing/cv.py): applies the
cv2.THRESH_BINARY rule to every pixel of every image of the batch. -/
def threshold_images (images : Batch) (threshold : Int) : Batch :=
  images.map (thImage threshold)

/-- All pixels of the batch are bytes (uint8 values). -/
def AllByte (b : Batch) : Prop :=
  ∀ img ∈ b, ∀ row ∈ img, ∀ v ∈ row, v ≤ 255

instance (b : Batch) : Decidable (AllByte b) := by
  unfold AllByte
  infer_instance

/-- Error taxonomy named by the specification for invalid parameters. -/
inductive CvError : Type
  | parameterError : CvError

/-- Modelled from the spec: a binarize operation that validates the
threshold, failing with ParameterError for tau outside 0..255, and
otherwise behaves as threshold_images.  The source threshold_images has no
such validation; this definition exists only to compare the spec text with
the code. -/
def threshold_images_spec (images : Batch) (threshold : Int) :
    Except CvError Batch :=
  if 0 ≤ threshold ∧ threshold ≤ 255 then
    Except.ok (threshold_images images threshold)
  else
    Except.error CvError.parameterError

/-- A batch with every pixel replaced by the constant c, preserving shape. -/
def constBatch (c : Nat) (b : Batch) : Batch :=
  b.map (fun img => img.map (fun row => row.map (fun _ => c)))

/-- Claim C1, evaluation of the code at the failing input: a pixel whose
value equals the threshold is mapped to 0 by threshold_images, because
cv2.THRESH_BINARY compares strictly; the claim (and the docstring of
threshold_images) says a pixel equal to tau becomes foreground 255. -/
theorem C1_equal_pixel_becomes_zero :
    threshold_images [[[100]]] 100 = [[[0]]] ∧
      threshold_images [[[100]]] 100 ≠ [[[255]]] := by
  constructor
  · rfl
  · decide

/-- Pixel-level idempotence of the THRESH_BINARY rule on byte pixels with a
nonnegative threshold. -/
theorem thPixel_idem (τ : Int) (v : Nat) (h0 : 0 ≤ τ) (hv : v ≤ 255) :
    thPixel τ (thPixel τ v) = thPixel τ v := by
  unfold thPixel
  by_cases hgt : (v : Int) > τ
  · rw [if_pos hgt, if_pos]
    have : (v : Int) ≤ 255 := by exact_mod_cast hv
    push_cast
    omega
  · rw [if_neg hgt, if_neg]
    push_cast
    omega

/-- Claim C8: binarization is idempotent at a fixed threshold.  For a
byte-valued batch and tau in 0..255, re-applying threshold_images at the
same tau to its own output returns that output unchanged. -/
theorem C8_threshold_images_idempotent (b : Batch) (τ : Int)
    (h0 : 0 ≤ τ) (h255 : τ ≤ 255) (hb : AllByte b) :
    threshold_images (threshold_images b τ) τ = threshold_images b τ := by
  unfold threshold_images
  rw [List.map_map]
  refine List.map_congr_left ?_
  intro img himg
  simp only [Function.comp_apply]
  unfold thImage
  rw [List.map_map]
  refine List.map_congr_left ?_
  intro row hrow
  simp only [Function.comp_apply]
  rw [List.map_map]
  refine List.map_congr_left ?_
  intro v hv
  simp only [Function.comp_apply]
  exact thPixel_idem τ v h0 (hb img himg row hrow v hv)

/-- Claim C8 witness: idempotence at a concrete byte batch and threshold. -/
theorem C8_witness :
    (0 : Int) ≤ 150 ∧ (150 : Int) ≤ 255 ∧ AllByte [[[100, 200]]] ∧
      threshold_images (threshold_images [[[100, 200]]] 150) 150 =
        threshold_images [[[100, 200]]] 150 := by
  refine ⟨by decide, by decide, by decide, ?_⟩
  exact C8_threshold_images_idempotent [[[100, 200]]] 150 (by decide)
    (by decide) (by decide)

/-- Claim C10 counterexample: at tau = 300, outside 0..255, the source
threshold_images returns a normal all-zero batch instead of failing, while
the validating operation described by the spec fails with ParameterError. -/
theorem C10_no_validation_at_300 :
    threshold_images [[[42]]] 300 = [[[0]]] ∧
      threshold_images_spec [[[42]]] 300 =
        Except.error CvError.parameterError := by
  constructor
  · rfl
  · unfold threshold_images_spec
    rw [if_neg]
    intro h
    omega

/-- Claim C10 amended: threshold_images performs no validation of tau.
Every integer tau is accepted and produces a batch by the strict rule: a
negative tau makes every pixel foreground 255, and tau of at least 255
makes every byte pixel background 0. -/
theorem C10_amended_no_validation (b : Batch) (τ : Int) :
    (τ < 0 → threshold_images b τ = constBatch 255 b) ∧
      (255 ≤ τ → AllByte b → threshold_images b τ = constBatch 0 b) := by
  constructor
  · intro hneg
    unfold threshold_images thImage constBatch
    refine List.map_congr_left ?_
    intro img _
    refine List.map_congr_left ?_
    intro row _
    refine List.map_congr_left ?_
    intro v _
    unfold thPixel
    rw [if_pos]
    have : (0 : Int) ≤ (v : Int) := Int.natCast_nonneg v
    omega
  · intro hge hb
    unfold threshold_images thImage constBatch
    refine List.map_congr_left ?_
    intro img himg
    refine List.map_congr_left ?_
    intro row hrow
    refine List.map_congr_left ?_
    intro v hv
    unfold thPixel
    rw [if_neg]
    have : (v : Int) ≤ 255 := by exact_mod_cast hb img himg row hrow v hv
    omega

/-- Claim C10 amended witness: both branches at concrete inputs. -/
theorem C10_amended_witness :
    threshold_images [[[7]]] (-1) = constBatch 255 [[[7]]] ∧
      threshold_images [[[7]]] 300 = constBatch 0 [[[7]]] := by
  constructor
  · exact (C10_amended_no_validation [[[7]]] (-1)).1 (by decide)
  · exact (C10_amended_no_validation [[[7]]] 300).2 (by decide) (by decide)

/-- Clamp an integer index into 0..n-1, the BORDER_REPLICATE boundary rule
used by cv2.medianBlur. -/
def clampIdx (n : Nat) (i : Int) : Nat :=
  (max 0 (min i ((n : Int) - 1))).toNat

/-- Pixel value of an image at row i, column j, with 0 outside bounds. -/
def pixval (img : Image) (i j : Nat) : Nat :=
  (img.getD i []).getD j 0

/-- The nine offsets of a 3x3 window. -/
def nbhdOffsets : List (Int × Int) :=
  [(-1, -1), (-1, 0), (-1, 1), (0, -1), (0, 0), (0, 1), (1, -1), (1, 0), (1, 1)]

/-- The nine values of the replicated 3x3 window around (i, j). -/
def nbhd (img : Image) (i j : Nat) : List Nat :=
  nbhdOffsets.map (fun o =>
    let r := img.getD (clampIdx img.length ((i : Int) + o.1)) []
    r.getD (clampIdx r.length ((j : Int) + o.2)) 0)

/-- Insert into a sorted list, keeping it sorted by ≤. -/
def insertLe (x : Nat) : List Nat → List Nat
  | [] => [x]
  | y :: ys => if x ≤ y then x :: y :: ys else y :: insertLe x ys

/-- Insertion sort, ascending. -/
def isort : List Nat → List Nat
  | [] => []
  | x :: xs => insertLe x (isort xs)

/-- Median of a 3x3 window: the fifth smallest of its nine values. -/
def median9 (l : List Nat) : Nat := (isort l).getD 4 0

/-- One output row of the 3x3 median filter. -/
def mBlurRow (img : Image) (i : Nat) : List Nat :=
  (List.range (img.getD i []).length).map (fun j => median9 (nbhd img i j))

/-- cv2.medianBlur with the default kernel size 3 on one image. -/
def mBlurImage (img : Image) : Image :=
  (List.range img.length).map (mBlurRow img)

/-- Embedding of filter_median_images (processing/cv.py) at the default
kernel_size 3, the value used by every call in the calibration and test
code covered by the claims. -/
def filter_median_images (images : Batch) : Batch :=
  images.map mBlurImage

/-- A pixel position: row index and column index. -/
abbrev Pos : Type := Nat × Nat

/-- All in-bounds positions of an image, in raster order. -/
def positions (img : Image) : List Pos :=
  ((List.range img.length).map (fun i =>
    (List.range (img.getD i []).length).map (fun j => (i, j)))).flatten

/-- Foreground test of skimage.measure.label: a nonzero pixel. -/
def fgb (img : Image) (p : Pos) : Bool :=
  pixval img p.1 p.2 != 0

/-- The foreground positions of an image, in raster order. -/
def fgList (img : Image) : List Pos :=
  (positions img).filter (fgb img)

/-- 8-neighbor adjacency of two distinct positions, the full connectivity
that skimage.measure.label applies to the 2-D binary maps of the
pipeline. -/
def adjb (p q : Pos) : Bool :=
  (p != q) && decide (max p.1 q.1 - min p.1 q.1 ≤ 1)
    && decide (max p.2 q.2 - min p.2 q.2 ≤ 1)

/-- One closure step of a flood fill inside the foreground S: add every
point of S adjacent to the current set. -/
def expand (S cur : List Pos) : List Pos :=
  (cur ++ S.filter (fun q => cur.any (fun p => adjb p q))).dedup

/-- The connected component of p inside the foreground S, computed by
saturating the closure step; S.length rounds always suffice. -/
def compo (S : List Pos) (p : Pos) : List Pos :=
  (expand S)^[S.length] [p]

/-- The component of p listed in the canonical order of S. -/
def compFilter (S : List Pos) (p : Pos) : List Pos :=
  S.filter (fun q => decide (q ∈ compo S p))

/-- The connected components of the foreground of an image, each listed
once. -/
def compsOf (img : Image) : List (List Pos) :=
  ((fgList img).map (fun p => compFilter (fgList img) p)).dedup

/-- The list of region areas of one image: the pixel counts of its
connected components, as collected from skimage regionprops. -/
def areasOfImage (img : Image) : List Nat :=
  (compsOf img).map List.length

/-- The labeled map of one image: background 0, and each foreground pixel
carries the index of its component plus one. -/
def labeledOf (img : Image) : Image :=
  (List.range img.length).map (fun i =>
    (List.range (img.getD i []).length).map (fun j =>
      if fgb img (i, j) then
        ((compsOf img).findIdx (fun c => decide ((i, j) ∈ c))) + 1
      else 0))

/-- Embedding of label_images (processing/cv.py and its copy in
inspection.py): per image, the labeled map and the list of region areas. -/
def label_images (images : Batch) : Batch × List (List Nat) :=
  (images.map labeledOf, images.map areasOfImage)

/-- np.amax over a list: the greatest element; none models the ValueError
that np.amax raises on an empty array. -/
def npAmax (l : List Nat) : Option Nat :=
  match l with
  | [] => none
  | x :: xs => some (xs.foldl max x)

/-- The flattened list areas_all_1d of get_max_area (inspection.py):
threshold, median-filter and label the batch, then concatenate the
per-image area lists. -/
def areasFlat (resmaps : Batch) (threshold : Int) : List Nat :=
  ((label_images (filter_median_images
    (threshold_images resmaps threshold))).2).flatten

/-- Embedding of get_max_area (inspection.py): np.amax of the flattened
area list. -/
def get_max_area (resmaps : Batch) (threshold : Int) : Option Nat :=
  npAmax (areasFlat resmaps threshold)

/-- Helper: a left fold of max is at least its initial accumulator. -/
theorem le_foldl_max (xs : List Nat) (a : Nat) : a ≤ xs.foldl max a := by
  induction xs generalizing a with
  | nil => exact Nat.le_refl a
  | cons x t ih =>
      exact Nat.le_trans (Nat.le_max_left a x) (ih (max a x))

/-- Helper: a left fold of max bounds every list element. -/
theorem mem_le_foldl_max (xs : List Nat) (a x : Nat) (hx : x ∈ xs) :
    x ≤ xs.foldl max a := by
  induction xs generalizing a with
  | nil => cases hx
  | cons y t ih =>
      rcases List.mem_cons.1 hx with h | h
      · subst h
        exact Nat.le_trans (Nat.le_max_right a x) (le_foldl_max t (max a x))
      · exact ih (max a y) h

/-- Helper: a left fold of max is the accumulator or some list element. -/
theorem foldl_max_mem (xs : List Nat) (a : Nat) :
    xs.foldl max a = a ∨ xs.foldl max a ∈ xs := by
  induction xs generalizing a with
  | nil => exact Or.inl rfl
  | cons y t ih =>
      rcases ih (max a y) with h | h
      · rcases max_choice a y with hm | hm
        · exact Or.inl (by rw [List.foldl_cons, h, hm])
        · refine Or.inr ?_
          rw [List.foldl_cons, h, hm]
          exact List.mem_cons_self y t
      · exact Or.inr (List.mem_cons_of_mem y h)

/-- Helper: npAmax returns a member of the list. -/
theorem npAmax_mem (l : List Nat) (m : Nat) (h : npAmax l = some m) :
    m ∈ l := by
  cases l with
  | nil => cases h
  | cons x xs =>
      unfold npAmax at h
      have hm : xs.foldl max x = m := Option.some.inj h
      rcases foldl_max_mem xs x with h2 | h2
      · rw [← hm, h2]
        exact List.mem_cons_self x xs
      · rw [← hm]
        exact List.mem_cons_of_mem x h2

/-- Helper: npAmax bounds every member of the list. -/
theorem npAmax_ge (l : List Nat) (m a : Nat) (h : npAmax l = some m)
    (ha : a ∈ l) : a ≤ m := by
  cases l with
  | nil => cases h
  | cons x xs =>
      unfold npAmax at h
      have hm : xs.foldl max x = m := Option.some.inj h
      rcases List.mem_cons.1 ha with h2 | h2
      · rw [← hm, h2]
        exact le_foldl_max xs x
      · rw [← hm]
        exact mem_le_foldl_max xs x a h2

/-- Claim C4 counterexample: on a batch whose single image is a single
zero pixel, no region survives thresholding at 0, and get_max_area
produces no value at all (np.amax of an empty array raises ValueError);
the claim says it returns 0. -/
theorem C4_no_region_gives_no_value :
    get_max_area [[[0]]] 0 = none ∧ get_max_area [[[0]]] 0 ≠ some 0 := by
  constructor
  · rfl
  · decide

/-- Claim C4 amended: get_max_area returns the largest connected-component
area observed after binarize, denoise and label of the whole batch, but
fails (np.amax of an empty sequence raises ValueError, modeled as none)
rather than returning 0 when no regions exist. -/
theorem C4_amended_max_or_failure (b : Batch) (τ : Int) :
    (areasFlat b τ = [] → get_max_area b τ = none) ∧
      (areasFlat b τ ≠ [] →
        ∃ m, get_max_area b τ = some m ∧ m ∈ areasFlat b τ ∧
          ∀ a ∈ areasFlat b τ, a ≤ m) := by
  constructor
  · intro h
    unfold get_max_area
    rw [h]
    rfl
  · intro h
    unfold get_max_area
    cases hl : areasFlat b τ with
    | nil => exact absurd hl h
    | cons x xs =>
        refine ⟨xs.foldl max x, rfl, ?_, ?_⟩
        · rcases foldl_max_mem xs x with h2 | h2
          · rw [h2]
            exact List.mem_cons_self x xs
          · exact List.mem_cons_of_mem x h2
        · intro a ha
          rcases List.mem_cons.1 ha with h2 | h2
          · rw [h2]
            exact le_foldl_max xs x
          · exact mem_le_foldl_max xs x a h2

/-- Claim C4 amended witness: a batch with one bright pixel yields one
region of area one. -/
theorem C4_amended_witness :
    areasFlat [[[200]]] 10 ≠ [] ∧
      ∃ m, get_max_area [[[200]]] 10 = some m ∧
        m ∈ areasFlat [[[200]]] 10 ∧ ∀ a ∈ areasFlat [[[200]]] 10, a ≤ m :=
  ⟨by decide, (C4_amended_max_or_failure [[[200]]] 10).2 (by decide)⟩

/-- The elementwise comparison areas >= min_area of is_defective. -/
def areaGe (min_area : Int) (a : Nat) : Bool :=
  decide (min_area ≤ (a : Int))

/-- Embedding of is_defective (test.py): 1 when some region area reaches
min_area, else 0, via the count of areas passing the comparison. -/
def is_defective (areas : List Nat) (min_area : Int) : Nat :=
  if 0 < (areas.filter (areaGe min_area)).length then 1
  else 0

/-- Claim C5: is_defective returns 1 exactly when at least one area
reaches min_area, and returns 0 on an empty area sequence. -/
theorem C5_is_defective_iff (areas : List Nat) (min_area : Int) :
    (is_defective areas min_area = 1 ↔
        ∃ a : Nat, a ∈ areas ∧ min_area ≤ (a : Int)) ∧
      is_defective [] min_area = 0 := by
  have key : (0 < (areas.filter (areaGe min_area)).length) ↔
      (∃ a : Nat, a ∈ areas ∧ min_area ≤ (a : Int)) := by
    constructor
    · intro h
      have hne : areas.filter (areaGe min_area) ≠ [] := by
        intro hnil
        rw [hnil] at h
        exact absurd h (by decide)
      rcases List.exists_mem_of_ne_nil _ hne with ⟨a, ha⟩
      have hsplit := List.mem_filter.1 ha
      refine ⟨a, hsplit.1, ?_⟩
      have h2 := hsplit.2
      unfold areaGe at h2
      simpa using h2
    · rintro ⟨a, ha, hle⟩
      have hd : areaGe min_area a = true := by
        unfold areaGe
        simpa using hle
      have hmem : a ∈ areas.filter (areaGe min_area) :=
        List.mem_filter.2 ⟨ha, hd⟩
      exact List.length_pos.2 (List.ne_nil_of_mem hmem)
  constructor
  · unfold is_defective
    by_cases h : 0 < (areas.filter (areaGe min_area)).length
    · rw [if_pos h]
      exact ⟨fun _ => key.1 h, fun _ => rfl⟩
    · rw [if_neg h]
      constructor
      · intro h0
        exact absurd h0 (by decide)
      · intro hex
        exact absurd (key.2 hex) h
  · rfl

/-- The flattened pixel list of a batch. -/
def flatPix (b : Batch) : List Nat :=
  (b.map (fun img => img.flatten)).flatten

/-- numpy mean of the flattened batch. -/
def batchMean (b : Batch) : ℚ :=
  ((flatPix b).sum : ℚ) / ((flatPix b).length : ℚ)

/-- numpy variance (the square of numpy std) of the flattened batch. -/
def batchVar (b : Batch) : ℚ :=
  ((((flatPix b).map (fun v => v * v)).sum : Nat) : ℚ)
      / ((flatPix b).length : ℚ)
    - batchMean b * batchMean b

/-- Python round to the nearest integer, ties to even. -/
def pyRoundHalfEven (x : ℚ) : Int :=
  if x - (⌊x⌋ : ℚ) < 1/2 then ⌊x⌋
  else if (1 : ℚ)/2 < x - (⌊x⌋ : ℚ) then ⌊x⌋ + 1
  else if ⌊x⌋ % 2 = 0 then ⌊x⌋ else ⌊x⌋ + 1

/-- Python round(x, 1): round to one decimal digit, ties to even. -/
def pyRound1 (x : ℚ) : ℚ :=
  (pyRoundHalfEven (10 * x) : ℚ) / 10

/-- Python int() on a rational: truncation toward zero. -/
def pyInt (x : ℚ) : Int :=
  if 0 ≤ x then ⌊x⌋ else ⌈x⌉

/-- The expression int(round(norm(mu, sigma).ppf(q), 1)) - 1 computed from
a given batch and percentile q.  The scipy inverse normal CDF is an
analytic function with no closed rational form, so it enters as an oracle
argument normppf taking the mean, the variance (the square of the sigma
that the source passes, an injective recoding) and the percentile. -/
def th_min_formula (normppf : ℚ → ℚ → ℚ → ℚ) (resmaps : Batch)
    (q : ℚ) : Int :=
  pyInt (pyRound1 (normppf (batchMean resmaps) (batchVar resmaps) q)) - 1

/-- The module-level state of inspection.py that get_threshold_min reads:
the array resmaps_val_uint8 loaded at the top of the script. -/
structure ModuleEnv : Type where
  resmaps_val_uint8 : Batch

/-- Embedding of get_threshold_min (inspection.py).  Its body computes mu
and sigma from the module-level resmaps_val_uint8 and calls ppf with the
literal 0.97: both the resmaps parameter and the ppf_value parameter are
ignored. -/
def get_threshold_min (normppf : ℚ → ℚ → ℚ → ℚ) (env : ModuleEnv)
    (resmaps : Batch) (ppf_value : ℚ) : Int :=
  th_min_formula normppf env.resmaps_val_uint8 (97/100)

/-- A concrete inverse-CDF oracle used to exhibit the data flow of
get_threshold_min: any function of (mean, variance, percentile) works. -/
def ppfDemo : ℚ → ℚ → ℚ → ℚ :=
  fun mu v q => mu + v + 100 * q

/-- A module state whose resmaps_val_uint8 is a single pixel of value 8. -/
def envDemo : ModuleEnv := ⟨[[[8]]]⟩

/-- A module state whose resmaps_val_uint8 is a single pixel of value 16. -/
def envDemoB : ModuleEnv := ⟨[[[16]]]⟩

/-- A batch passed as the resmaps argument, distinct from both module
states. -/
def rmapsDemo : Batch := [[[16]]]

/-- Helper: the banker rounding fixes every integer. -/
theorem pyRoundHalfEven_intCast (n : Int) : pyRoundHalfEven (n : ℚ) = n := by
  unfold pyRoundHalfEven
  rw [Int.floor_intCast]
  norm_num

/-- Helper: one-decimal rounding fixes every integer. -/
theorem pyRound1_intCast (n : Int) : pyRound1 (n : ℚ) = n := by
  unfold pyRound1
  have h10 : (10 : ℚ) * (n : ℚ) = ((10 * n : Int) : ℚ) := by
    push_cast
    ring
  rw [h10, pyRoundHalfEven_intCast]
  push_cast
  ring

/-- Helper: truncation toward zero fixes every integer. -/
theorem pyInt_intCast (n : Int) : pyInt (n : ℚ) = n := by
  unfold pyInt
  split
  · exact Int.floor_intCast n
  · exact Int.ceil_intCast n

/-- Helper: th_min_formula at an integer-valued oracle output. -/
theorem th_min_formula_of_intCast (normppf : ℚ → ℚ → ℚ → ℚ) (b : Batch)
    (q : ℚ) (n : Int)
    (h : normppf (batchMean b) (batchVar b) q = (n : ℚ)) :
    th_min_formula normppf b q = n - 1 := by
  unfold th_min_formula
  rw [h, pyRound1_intCast, pyInt_intCast]

/-- Helper: mean of a batch with the single pixel 16. -/
theorem batchMean_16 : batchMean [[[16]]] = 16 := by
  unfold batchMean flatPix
  norm_num

/-- Helper: variance of a batch with the single pixel 16. -/
theorem batchVar_16 : batchVar [[[16]]] = 0 := by
  unfold batchVar flatPix
  rw [batchMean_16]
  norm_num

/-- Helper: the value of th_min_formula on the demo batch at 0.99. -/
theorem th_min_formula_demo_99 :
    th_min_formula ppfDemo rmapsDemo (99/100) = 114 := by
  have h1 : th_min_formula ppfDemo rmapsDemo (99/100) = 115 - 1 := by
    refine th_min_formula_of_intCast ppfDemo rmapsDemo (99/100) 115 ?_
    unfold rmapsDemo
    rw [batchMean_16, batchVar_16]
    unfold ppfDemo
    norm_num
  rw [h1]
  decide

/-- Helper: the value of th_min_formula on the demo batch at 0.97. -/
theorem th_min_formula_demo_97 :
    th_min_formula ppfDemo rmapsDemo (97/100) = 112 := by
  have h1 : th_min_formula ppfDemo rmapsDemo (97/100) = 113 - 1 := by
    refine th_min_formula_of_intCast ppfDemo rmapsDemo (97/100) 113 ?_
    unfold rmapsDemo
    rw [batchMean_16, batchVar_16]
    unfold ppfDemo
    norm_num
  rw [h1]
  decide

/-- Helper: get_threshold_min under envDemo ignores its arguments and
returns the 0.97 threshold of the module-level single-pixel-8 batch. -/
theorem get_threshold_min_envDemo (resmaps : Batch) (q : ℚ) :
    get_threshold_min ppfDemo envDemo resmaps q = 104 := by
  unfold get_threshold_min envDemo
  have hmean : batchMean [[[8]]] = 8 := by
    unfold batchMean flatPix
    norm_num
  have hvar : batchVar [[[8]]] = 0 := by
    unfold batchVar flatPix
    rw [hmean]
    norm_num
  have h1 : th_min_formula ppfDemo [[[8]]] (97/100) = 105 - 1 := by
    refine th_min_formula_of_intCast ppfDemo [[[8]]] (97/100) 105 ?_
    rw [hmean, hvar]
    unfold ppfDemo
    norm_num
  rw [h1]
  decide

/-- Claim C2, evaluation of the code at the failing input: calling
get_threshold_min with percentile 0.99 returns exactly the same value as
with 0.97, because the body hard-codes ppf(0.97); yet the formula the
claim describes, applied to the passed arguments, gives different values
at the two percentiles. -/
theorem C2_percentile_ignored :
    get_threshold_min ppfDemo envDemo rmapsDemo (99/100) =
        get_threshold_min ppfDemo envDemo rmapsDemo (97/100) ∧
      th_min_formula ppfDemo rmapsDemo (99/100) ≠
        th_min_formula ppfDemo rmapsDemo (97/100) := by
  constructor
  · rfl
  · rw [th_min_formula_demo_99, th_min_formula_demo_97]
    decide

/-- Claim C9, evaluation of the code at the failing input: two calls of
get_threshold_min with identical resmaps and ppf_value arguments return
different results under different module-level states, so the result is
drawn from process-wide state, not from the arguments. -/
theorem C9_result_depends_on_module_state :
    get_threshold_min ppfDemo envDemo rmapsDemo (97/100) ≠
      get_threshold_min ppfDemo envDemoB rmapsDemo (97/100) := by
  have h1 : get_threshold_min ppfDemo envDemo rmapsDemo (97/100) = 104 :=
    get_threshold_min_envDemo rmapsDemo (97/100)
  have h2 : get_threshold_min ppfDemo envDemoB rmapsDemo (97/100) = 112 := by
    unfold get_threshold_min envDemoB
    exact th_min_formula_demo_97
  rw [h1, h2]
  decide

/-- numpy division of two scalars: a finite quotient unless the
denominator is zero, in which case numpy emits a non-finite result (NaN
here, since the numerator is also zero in every reachable case) with a
warning instead of raising; none models that non-finite outcome. -/
def npDivQ (a b : ℚ) : Option ℚ :=
  if b = 0 then none else some (a / b)

/-- The ValueError raised when the flattened confusion matrix of
sklearn does not unpack into exactly four entries. -/
inductive SkError : Type
  | valueError : SkError

/-- Embedding of the scoring block of main (test.py, lines 160 to 185):
P and N count the ground-truth classes, TP and TN count agreeing indices,
TPR is TP divided by P and TNR is TN divided by N; afterwards the
confusion matrix is flattened and unpacked into four names, which raises
ValueError unless y_true and y_pred together contain exactly two distinct
label values. -/
def score (y_pred y_true : List Nat) : Except SkError (Option ℚ × Option ℚ) :=
  let total := y_true.length
  let P := y_true.count 1
  let N := y_true.count 0
  let TP := (List.range total).countP (fun i =>
    (y_pred.getD i 0 == y_true.getD i 0) && (y_true.getD i 0 == 1))
  let TN := (List.range total).countP (fun i =>
    (y_pred.getD i 0 == y_true.getD i 0) && (y_true.getD i 0 == 0))
  let TPR := npDivQ (TP : ℚ) (P : ℚ)
  let TNR := npDivQ (TN : ℚ) (N : ℚ)
  if ((y_true ++ y_pred).dedup).length = 2 then Except.ok (TPR, TNR)
  else Except.error SkError.valueError

/-- True positives as the claim counts them: prediction 1 and truth 1. -/
def TPcount (y_pred y_true : List Nat) : Nat :=
  (y_pred.zip y_true).countP (fun pr => (pr.1 == 1) && (pr.2 == 1))

/-- False negatives: truth 1 and prediction not 1. -/
def FNcount (y_pred y_true : List Nat) : Nat :=
  (y_pred.zip y_true).countP (fun pr => (!(pr.1 == 1)) && (pr.2 == 1))

/-- True negatives: prediction 0 and truth 0. -/
def TNcount (y_pred y_true : List Nat) : Nat :=
  (y_pred.zip y_true).countP (fun pr => (pr.1 == 0) && (pr.2 == 0))

/-- False positives: truth 0 and prediction not 0. -/
def FPcount (y_pred y_true : List Nat) : Nat :=
  (y_pred.zip y_true).countP (fun pr => (!(pr.1 == 0)) && (pr.2 == 0))

/-- Helper: counting a conjunction and its complemented conjunction adds
up to counting the second conjunct alone. -/
theorem countP_and_split {α : Type} (l : List α) (p q : α → Bool) :
    l.countP (fun x => p x && q x) + l.countP (fun x => !(p x) && q x) =
      l.countP q := by
  induction l with
  | nil => rfl
  | cons x t ih =>
      rw [List.countP_cons, List.countP_cons, List.countP_cons]
      cases hp : p x <;> cases hq : q x <;> simp [hp, hq] <;> omega

/-- Helper: an index count over the common range equals a zip count. -/
theorem countP_range_eq_zip (y_pred y_true : List Nat)
    (h : y_pred.length = y_true.length) (p : Nat → Nat → Bool) :
    (List.range y_true.length).countP (fun i =>
        p (y_pred.getD i 0) (y_true.getD i 0)) =
      (y_pred.zip y_true).countP (fun pr => p pr.1 pr.2) := by
  induction y_true generalizing y_pred with
  | nil =>
      have hp : y_pred = [] := List.length_eq_zero.1 h
      subst hp
      rfl
  | cons t ts ih =>
      cases y_pred with
      | nil =>
          simp at h
      | cons p0 ps =>
          have hlen : ps.length = ts.length := by simpa using h
          rw [List.length_cons, List.range_succ_eq_map, List.countP_cons,
            List.countP_map, List.zip_cons_cons, List.countP_cons]
          have hcomp : ((fun i =>
              p ((p0 :: ps).getD i 0) ((t :: ts).getD i 0)) ∘ Nat.succ) =
              (fun i => p (ps.getD i 0) (ts.getD i 0)) := by
            funext i
            rfl
          rw [hcomp, ih ps hlen]
          rfl

/-- Helper: a zip count of a predicate on the second component equals the
plain count on the second list, when lengths agree. -/
theorem countP_zip_snd (y_pred y_true : List Nat)
    (h : y_pred.length = y_true.length) (q : Nat → Bool) :
    (y_pred.zip y_true).countP (fun pr => q pr.2) = y_true.countP q := by
  induction y_true generalizing y_pred with
  | nil =>
      have hp : y_pred = [] := List.length_eq_zero.1 h
      subst hp
      rfl
  | cons t ts ih =>
      cases y_pred with
      | nil =>
          simp at h
      | cons p0 ps =>
          have hlen : ps.length = ts.length := by simpa using h
          rw [List.zip_cons_cons, List.countP_cons, List.countP_cons,
            ih ps hlen]

/-- Helper: the chained comparison of the TP line agrees with the
conjunction of two value tests. -/
theorem beq_chain_one (a b : Nat) :
    ((a == b) && (b == 1)) = ((a == 1) && (b == 1)) := by
  by_cases hb : b = 1
  · subst hb
    rfl
  · have h1 : (b == 1) = false := by
      simpa using hb
    rw [h1, Bool.and_false, Bool.and_false]

/-- Helper: the chained comparison of the TN line agrees with the
conjunction of two value tests. -/
theorem beq_chain_zero (a b : Nat) :
    ((a == b) && (b == 0)) = ((a == 0) && (b == 0)) := by
  by_cases hb : b = 0
  · subst hb
    rfl
  · have h1 : (b == 0) = false := by
      simpa using hb
    rw [h1, Bool.and_false, Bool.and_false]

/-- Helper: TP plus FN is the positive count of the ground truth. -/
theorem TP_add_FN (y_pred y_true : List Nat)
    (h : y_pred.length = y_true.length) :
    TPcount y_pred y_true + FNcount y_pred y_true = y_true.count 1 := by
  unfold TPcount FNcount
  rw [countP_and_split (y_pred.zip y_true) (fun pr => pr.1 == 1)
    (fun pr => pr.2 == 1)]
  rw [countP_zip_snd y_pred y_true h (fun b => b == 1)]
  rw [List.count_eq_countP]

/-- Helper: TN plus FP is the negative count of the ground truth. -/
theorem TN_add_FP (y_pred y_true : List Nat)
    (h : y_pred.length = y_true.length) :
    TNcount y_pred y_true + FPcount y_pred y_true = y_true.count 0 := by
  unfold TNcount FPcount
  rw [countP_and_split (y_pred.zip y_true) (fun pr => pr.1 == 0)
    (fun pr => pr.2 == 0)]
  rw [countP_zip_snd y_pred y_true h (fun b => b == 0)]
  rw [List.count_eq_countP]

/-- Claim C6 counterexample: an all-normal prediction against an
all-normal ground truth leaves the positive class absent from y_true, and
the scoring step fails fatally (the 1x1 confusion matrix does not unpack
into four values) instead of reporting NaN rates. -/
theorem C6_single_label_is_fatal :
    ([0, 0] : List Nat).count 1 = 0 ∧
      score [0, 0] [0, 0] = Except.error SkError.valueError := by
  constructor
  · rfl
  · rfl

/-- Claim C6 amended: when y_true and y_pred have equal length and
together contain exactly two distinct labels, the scoring step returns
TPR as TP divided by TP plus FN and TNR as TN divided by TN plus FP, and
each rate degrades to the non-finite NaN marker, not to a fatal error,
when its class is absent from the ground truth; with fewer or more
distinct labels, however, the step fails with ValueError. -/
theorem C6_amended_rates (y_pred y_true : List Nat)
    (hlen : y_pred.length = y_true.length)
    (hlab : ((y_true ++ y_pred).dedup).length = 2) :
    score y_pred y_true =
      Except.ok
        (npDivQ (TPcount y_pred y_true : ℚ)
          ((TPcount y_pred y_true : ℚ) + (FNcount y_pred y_true : ℚ)),
         npDivQ (TNcount y_pred y_true : ℚ)
          ((TNcount y_pred y_true : ℚ) + (FPcount y_pred y_true : ℚ))) ∧
      (y_true.count 1 = 0 →
        npDivQ (TPcount y_pred y_true : ℚ)
          ((TPcount y_pred y_true : ℚ) + (FNcount y_pred y_true : ℚ)) =
          none) ∧
      (y_true.count 0 = 0 →
        npDivQ (TNcount y_pred y_true : ℚ)
          ((TNcount y_pred y_true : ℚ) + (FPcount y_pred y_true : ℚ)) =
          none) := by
  have hTP : (List.range y_true.length).countP (fun i =>
      (y_pred.getD i 0 == y_true.getD i 0) && (y_true.getD i 0 == 1)) =
      TPcount y_pred y_true := by
    rw [countP_range_eq_zip y_pred y_true hlen
      (fun a b => (a == b) && (b == 1))]
    unfold TPcount
    refine List.countP_congr ?_
    intro pr _
    rw [beq_chain_one pr.1 pr.2]
  have hTN : (List.range y_true.length).countP (fun i =>
      (y_pred.getD i 0 == y_true.getD i 0) && (y_true.getD i 0 == 0)) =
      TNcount y_pred y_true := by
    rw [countP_range_eq_zip y_pred y_true hlen
      (fun a b => (a == b) && (b == 0))]
    unfold TNcount
    refine List.countP_congr ?_
    intro pr _
    rw [beq_chain_zero pr.1 pr.2]
  have hP : ((y_true.count 1 : Nat) : ℚ) =
      (TPcount y_pred y_true : ℚ) + (FNcount y_pred y_true : ℚ) := by
    rw [← TP_add_FN y_pred y_true hlen]
    push_cast
    ring
  have hN : ((y_true.count 0 : Nat) : ℚ) =
      (TNcount y_pred y_true : ℚ) + (FPcount y_pred y_true : ℚ) := by
    rw [← TN_add_FP y_pred y_true hlen]
    push_cast
    ring
  refine ⟨?_, ?_, ?_⟩
  · unfold score
    rw [if_pos hlab, hTP, hTN, hP, hN]
  · intro h0
    have hz : (TPcount y_pred y_true : ℚ) +
        (FNcount y_pred y_true : ℚ) = 0 := by
      rw [← hP, h0]
      norm_num
    rw [hz]
    unfold npDivQ
    rw [if_pos rfl]
  · intro h0
    have hz : (TNcount y_pred y_true : ℚ) +
        (FPcount y_pred y_true : ℚ) = 0 := by
      rw [← hN, h0]
      norm_num
    rw [hz]
    unfold npDivQ
    rw [if_pos rfl]

/-- Claim C6 amended witness: a two-image batch with one positive and one
negative, both predicted correctly. -/
theorem C6_amended_witness :
    score [1, 0] [1, 0] =
      Except.ok
        (npDivQ (TPcount [1, 0] [1, 0] : ℚ)
          ((TPcount [1, 0] [1, 0] : ℚ) + (FNcount [1, 0] [1, 0] : ℚ)),
         npDivQ (TNcount [1, 0] [1, 0] : ℚ)
          ((TNcount [1, 0] [1, 0] : ℚ) + (FPcount [1, 0] [1, 0] : ℚ))) :=
  (C6_amended_rates [1, 0] [1, 0] rfl (by decide)).1

/-- Pointwise order between two images of identical shape. -/
def ImageLE (a b : Image) : Prop :=
  List.Forall₂ (List.Forall₂ (· ≤ ·)) a b

/-- Helper: a Forall₂ relation transfers to getD lookups when it holds of
the defaults. -/
theorem forall₂_getD {α β : Type} {r : α → β → Prop} {l1 : List α}
    {l2 : List β} (h : List.Forall₂ r l1 l2) {d1 : α} {d2 : β}
    (hd : r d1 d2) (i : Nat) : r (l1.getD i d1) (l2.getD i d2) := by
  induction h generalizing i with
  | nil => exact hd
  | cons hxy htl ih =>
      cases i with
      | zero => exact hxy
      | succ i => exact ih i

/-- Helper: mapping two functions over one list yields Forall₂ when the
functions are pointwise related on the list. -/
theorem forall₂_map_of_forall {γ α β : Type} {r : α → β → Prop}
    (l : List γ) (f : γ → α) (g : γ → β) (h : ∀ x ∈ l, r (f x) (g x)) :
    List.Forall₂ r (l.map f) (l.map g) := by
  induction l with
  | nil => exact List.Forall₂.nil
  | cons x t ih =>
      exact List.Forall₂.cons (h x (List.mem_cons_self x t))
        (ih fun y hy => h y (List.mem_cons_of_mem x hy))

/-- Helper: pointwise order of images gives pointwise order of pixels. -/
theorem imageLE_pixval {a b : Image} (h : ImageLE a b) (i j : Nat) :
    pixval a i j ≤ pixval b i j :=
  forall₂_getD (forall₂_getD h List.Forall₂.nil i) (Nat.le_refl 0) j

/-- Helper: pointwise-ordered images have equal row lengths. -/
theorem imageLE_rowlen {a b : Image} (h : ImageLE a b) (i : Nat) :
    (a.getD i []).length = (b.getD i []).length :=
  (forall₂_getD h List.Forall₂.nil i).length_eq

/-- All values of a list are 0 or 255. -/
def BinList (l : List Nat) : Prop := ∀ v ∈ l, v = 0 ∨ v = 255

/-- All pixels of an image are 0 or 255. -/
def BinImage (img : Image) : Prop := ∀ row ∈ img, BinList row

/-- Helper: a getD lookup is a member of the list or the default. -/
theorem getD_mem_or_eq {α : Type} (l : List α) (n : Nat) (d : α) :
    l.getD n d ∈ l ∨ l.getD n d = d := by
  induction l generalizing n with
  | nil => exact Or.inr rfl
  | cons x t ih =>
      cases n with
      | zero => exact Or.inl (List.mem_cons_self x t)
      | succ n =>
          rcases ih n with h | h
          · exact Or.inl (List.mem_cons_of_mem x h)
          · exact Or.inr h

/-- Helper: every pixval of a binary image is 0 or 255. -/
theorem pixval_bin {img : Image} (h : BinImage img) (i j : Nat) :
    pixval img i j = 0 ∨ pixval img i j = 255 := by
  unfold pixval
  rcases getD_mem_or_eq (img.getD i []) j 0 with hv | hv
  · rcases getD_mem_or_eq img i [] with hr | hr
    · exact h _ hr _ hv
    · rw [hr] at hv
      cases hv
  · exact Or.inl hv

/-- Helper: the thresholded image is binary. -/
theorem thImage_bin (τ : Int) (img : Image) : BinImage (thImage τ img) := by
  intro row hrow v hv
  unfold thImage at hrow
  rcases List.mem_map.1 hrow with ⟨row0, _, rfl⟩
  rcases List.mem_map.1 hv with ⟨v0, _, rfl⟩
  unfold thPixel
  by_cases h : (v0 : Int) > τ
  · rw [if_pos h]
    exact Or.inr rfl
  · rw [if_neg h]
    exact Or.inl rfl

/-- Helper: a higher threshold yields a pointwise smaller binarization. -/
theorem thImage_le {τ1 τ2 : Int} (h : τ1 ≤ τ2) (img : Image) :
    ImageLE (thImage τ2 img) (thImage τ1 img) := by
  unfold thImage ImageLE
  refine forall₂_map_of_forall img _ _ ?_
  intro row _
  refine forall₂_map_of_forall row _ _ ?_
  intro v _
  unfold thPixel
  by_cases h2 : (v : Int) > τ2
  · rw [if_pos h2, if_pos (by omega)]
  · rw [if_neg h2]
    exact Nat.zero_le _

/-- Helper: inserting 0 prepends it. -/
theorem insertLe_zero (l : List Nat) : insertLe 0 l = 0 :: l := by
  cases l with
  | nil => rfl
  | cons y ys =>
      unfold insertLe
      rw [if_pos (Nat.zero_le y)]

/-- Helper: inserting 255 into a sorted binary block appends it to the
255 block. -/
theorem insertLe_255_reps (a c : Nat) :
    insertLe 255 (List.replicate a 0 ++ List.replicate c (255 : Nat)) =
      List.replicate a 0 ++ List.replicate (c + 1) (255 : Nat) := by
  induction a with
  | zero =>
      simp only [List.replicate, List.nil_append]
      cases c with
      | zero => rfl
      | succ c =>
          rw [List.replicate_succ]
          unfold insertLe
          rw [if_pos (Nat.le_refl 255)]
  | succ a ih =>
      rw [List.replicate_succ, List.cons_append]
      unfold insertLe
      rw [if_neg (by omega), ih, ← List.cons_append, ← List.replicate_succ]

/-- Helper: insertion sort of a binary list is a zero block followed by a
255 block. -/
theorem isort_bin (l : List Nat) (hb : BinList l) :
    isort l = List.replicate (l.length - l.count 255) 0 ++
      List.replicate (l.count 255) (255 : Nat) := by
  induction l with
  | nil => rfl
  | cons x t ih =>
      have hbt : BinList t := fun v hv => hb v (List.mem_cons_of_mem x hv)
      have hcle : t.count 255 ≤ t.length := List.count_le_length 255 t
      show insertLe x (isort t) = _
      rw [ih hbt]
      rcases hb x (List.mem_cons_self x t) with hx | hx
      · subst hx
        rw [insertLe_zero]
        have hc : ((0 : Nat) :: t).count 255 = t.count 255 := by
          rw [List.count_cons]
          norm_num
        rw [hc, List.length_cons]
        have harith : t.length + 1 - t.count 255 =
            (t.length - t.count 255) + 1 := by omega
        rw [harith, List.replicate_succ, List.cons_append]
      · subst hx
        rw [insertLe_255_reps]
        have hc : ((255 : Nat) :: t).count 255 = t.count 255 + 1 := by
          rw [List.count_cons]
          norm_num
        rw [hc, List.length_cons]
        have harith : t.length + 1 - (t.count 255 + 1) =
            t.length - t.count 255 := by omega
        rw [harith]

/-- Helper: getD on a replicate. -/
theorem getD_replicate (c n v d : Nat) :
    (List.replicate c v).getD n d = if n < c then v else d := by
  induction c generalizing n with
  | zero =>
      rw [if_neg (by omega)]
      rfl
  | succ c ih =>
      rw [List.replicate_succ]
      cases n with
      | zero =>
          rw [if_pos (by omega)]
          rfl
      | succ n =>
          show (List.replicate c v).getD n d = _
          rw [ih n]
          by_cases h : n < c
          · rw [if_pos h, if_pos (by omega)]
          · rw [if_neg h, if_neg (by omega)]

/-- Helper: getD on a zero block followed by a 255 block. -/
theorem getD_reps_append (a c n : Nat) :
    (List.replicate a 0 ++ List.replicate c (255 : Nat)).getD n 0 =
      if n < a then 0 else if n - a < c then 255 else 0 := by
  by_cases h : n < a
  · rw [if_pos h, List.getD_append]
    · rw [getD_replicate, if_pos h]
    · rw [List.length_replicate]
      exact h
  · rw [if_neg h, List.getD_append_right]
    · rw [List.length_replicate, getD_replicate]
    · rw [List.length_replicate]
      omega

/-- Helper: the median of a binary nine-element list is 255 exactly when
at least five entries are 255. -/
theorem median9_bin_char (l : List Nat) (hb : BinList l)
    (hl : l.length = 9) :
    median9 l = if 5 ≤ l.count 255 then 255 else 0 := by
  have hcle : l.count 255 ≤ 9 := by
    have := List.count_le_length 255 l
    omega
  unfold median9
  rw [isort_bin l hb, hl, getD_reps_append]
  by_cases h : 5 ≤ l.count 255
  · rw [if_neg (by omega), if_pos (by omega), if_pos h]
  · rw [if_pos (by omega), if_neg h]

/-- Helper: the median of a binary nine-element list is binary. -/
theorem median9_bin (l : List Nat) (hb : BinList l) (hl : l.length = 9) :
    median9 l = 0 ∨ median9 l = 255 := by
  rw [median9_bin_char l hb hl]
  by_cases h : 5 ≤ l.count 255
  · rw [if_pos h]
    exact Or.inr rfl
  · rw [if_neg h]
    exact Or.inl rfl

/-- Helper: counting 255 is monotone under pointwise order into a binary
list. -/
theorem count255_le_of_forall₂ {l1 l2 : List Nat}
    (h : List.Forall₂ (· ≤ ·) l1 l2) :
    BinList l2 → l1.count 255 ≤ l2.count 255 := by
  induction h with
  | nil => intro _; exact Nat.le_refl 0
  | @cons x y t1 t2 hxy htl ih =>
      intro hb
      have hbt : BinList t2 := fun v hv => hb v (List.mem_cons_of_mem y hv)
      rw [List.count_cons, List.count_cons]
      by_cases hx : x = 255
      · have hy : y = 255 := by
          rcases hb y (List.mem_cons_self y t2) with h0 | h255
          · omega
          · exact h255
        subst hx
        subst hy
        simpa using ih hbt
      · have hxf : (x == 255) = false := by simpa using hx
        rw [hxf]
        have := ih hbt
        by_cases hy : (y == 255) = true <;> simp [hy] <;> omega

/-- Helper: the nine-element median is monotone on binary lists. -/
theorem median9_mono {l1 l2 : List Nat} (h : List.Forall₂ (· ≤ ·) l1 l2)
    (hb1 : BinList l1) (hb2 : BinList l2) (hl : l1.length = 9) :
    median9 l1 ≤ median9 l2 := by
  have hl2 : l2.length = 9 := by
    rw [← h.length_eq]
    exact hl
  rw [median9_bin_char l1 hb1 hl, median9_bin_char l2 hb2 hl2]
  have hc := count255_le_of_forall₂ h hb2
  by_cases h5 : 5 ≤ l1.count 255
  · rw [if_pos h5, if_pos (Nat.le_trans h5 hc)]
  · rw [if_neg h5]
    exact Nat.zero_le _

/-- Helper: the window has nine entries. -/
theorem nbhd_length (img : Image) (i j : Nat) :
    (nbhd img i j).length = 9 := by
  unfold nbhd nbhdOffsets
  rfl

/-- Helper: the window of a binary image is binary. -/
theorem nbhd_bin {img : Image} (h : BinImage img) (i j : Nat) :
    BinList (nbhd img i j) := by
  intro v hv
  unfold nbhd at hv
  rcases List.mem_map.1 hv with ⟨o, _, rfl⟩
  exact pixval_bin h _ _

/-- Helper: windows of pointwise-ordered images are pointwise ordered. -/
theorem nbhd_le {a b : Image} (h : ImageLE a b) (i j : Nat) :
    List.Forall₂ (· ≤ ·) (nbhd a i j) (nbhd b i j) := by
  unfold nbhd
  refine forall₂_map_of_forall nbhdOffsets _ _ ?_
  intro o _
  show pixval a (clampIdx a.length ((i : Int) + o.1))
      (clampIdx (a.getD (clampIdx a.length ((i : Int) + o.1)) []).length
        ((j : Int) + o.2)) ≤
    pixval b (clampIdx b.length ((i : Int) + o.1))
      (clampIdx (b.getD (clampIdx b.length ((i : Int) + o.1)) []).length
        ((j : Int) + o.2))
  rw [h.length_eq]
  rw [imageLE_rowlen h (clampIdx b.length ((i : Int) + o.1))]
  exact imageLE_pixval h _ _

/-- Helper: the 3x3 median filter is monotone on binary images of equal
shape. -/
theorem mBlur_le {a b : Image} (ha : BinImage a) (hb : BinImage b)
    (h : ImageLE a b) : ImageLE (mBlurImage a) (mBlurImage b) := by
  unfold mBlurImage ImageLE
  rw [h.length_eq]
  refine forall₂_map_of_forall (List.range b.length) _ _ ?_
  intro i _
  unfold mBlurRow
  rw [imageLE_rowlen h i]
  refine forall₂_map_of_forall (List.range (b.getD i []).length) _ _ ?_
  intro j _
  exact median9_mono (nbhd_le h i j) (nbhd_bin ha i j) (nbhd_bin hb i j)
    (nbhd_length a i j)

/-- Helper: positions depend only on the shape of the image. -/
theorem positions_congr {a b : Image} (hlen : a.length = b.length)
    (hrow : ∀ i, (a.getD i []).length = (b.getD i []).length) :
    positions a = positions b := by
  unfold positions
  rw [hlen]
  congr 1
  refine List.map_congr_left ?_
  intro i _
  rw [hrow i]

/-- Helper: foreground membership is monotone under pointwise order. -/
theorem fg_mono {a b : Image} (h : ImageLE a b) (p : Pos)
    (hp : fgb a p = true) : fgb b p = true := by
  unfold fgb at hp ⊢
  have hle := imageLE_pixval h p.1 p.2
  simp only [bne_iff_ne, ne_eq] at hp ⊢
  omega

/-- Helper: the foreground of the smaller image is a sublist of the
foreground of the larger one. -/
theorem fgList_sublist {a b : Image} (h : ImageLE a b) :
    (fgList a).Sublist (fgList b) := by
  unfold fgList
  rw [positions_congr h.length_eq (imageLE_rowlen h)]
  exact List.monotone_filter_right _ (fun p hp => fg_mono h p hp)

/-- Helper: the current set is contained in its expansion. -/
theorem mem_expand_left (S cur : List Pos) (x : Pos) (hx : x ∈ cur) :
    x ∈ expand S cur := by
  unfold expand
  rw [List.mem_dedup]
  exact List.mem_append_left _ hx

/-- Helper: the closure step is monotone in both arguments. -/
theorem expand_mono {S S2 cur cur2 : List Pos}
    (hS : ∀ x ∈ S, x ∈ S2) (hc : ∀ x ∈ cur, x ∈ cur2) :
    ∀ x ∈ expand S cur, x ∈ expand S2 cur2 := by
  intro x hx
  unfold expand at hx ⊢
  rw [List.mem_dedup] at hx ⊢
  rcases List.mem_append.1 hx with h | h
  · exact List.mem_append_left _ (hc x h)
  · rcases List.mem_filter.1 h with ⟨hxS, hadj⟩
    refine List.mem_append_right _ (List.mem_filter.2 ⟨hS x hxS, ?_⟩)
    rcases List.any_eq_true.1 hadj with ⟨p, hp, hpx⟩
    exact List.any_eq_true.2 ⟨p, hc p hp, hpx⟩

/-- Helper: iterated closure is monotone in the foreground and the seed. -/
theorem iterate_expand_mono (n : Nat) {S S2 cur cur2 : List Pos}
    (hS : ∀ x ∈ S, x ∈ S2) (hc : ∀ x ∈ cur, x ∈ cur2) :
    ∀ x ∈ (expand S)^[n] cur, x ∈ (expand S2)^[n] cur2 := by
  induction n generalizing cur cur2 with
  | zero => exact hc
  | succ n ih =>
      intro x hx
      rw [Function.iterate_succ_apply] at hx ⊢
      exact ih (expand_mono hS hc) x hx

/-- Helper: one more closure round only grows the set. -/
theorem iterate_expand_succ (S cur : List Pos) (n : Nat) :
    ∀ x ∈ (expand S)^[n] cur, x ∈ (expand S)^[n + 1] cur := by
  intro x hx
  rw [Function.iterate_succ_apply']
  exact mem_expand_left S _ x hx

/-- Helper: more closure rounds only grow the set. -/
theorem iterate_expand_le (S cur : List Pos) {m n : Nat} (hmn : m ≤ n) :
    ∀ x ∈ (expand S)^[m] cur, x ∈ (expand S)^[n] cur := by
  induction n with
  | zero =>
      have hm : m = 0 := Nat.le_zero.1 hmn
      subst hm
      exact fun x hx => hx
  | succ n ih =>
      by_cases h : m = n + 1
      · subst h
        exact fun x hx => hx
      · have hmn2 : m ≤ n := by omega
        exact fun x hx => iterate_expand_succ S cur n x (ih hmn2 x hx)

/-- Helper: components only grow when the foreground grows. -/
theorem compo_mono {Sa Sb : List Pos} (hsub : Sa.Sublist Sb) (p q : Pos)
    (hq : q ∈ compo Sa p) : q ∈ compo Sb p := by
  unfold compo at hq ⊢
  have h1 : q ∈ (expand Sb)^[Sa.length] [p] :=
    iterate_expand_mono Sa.length (fun y hy => hsub.subset hy)
      (fun y hy => hy) q hq
  exact iterate_expand_le Sb [p] hsub.length_le q h1

/-- Helper: the canonical component of p only grows when the foreground
grows. -/
theorem compFilter_le {Sa Sb : List Pos} (hsub : Sa.Sublist Sb) (p : Pos) :
    (compFilter Sa p).length ≤ (compFilter Sb p).length := by
  unfold compFilter
  have h1 : (Sa.filter (fun q => decide (q ∈ compo Sa p))).Sublist
      (Sa.filter (fun q => decide (q ∈ compo Sb p))) := by
    refine List.monotone_filter_right Sa ?_
    intro q hq
    simp only [decide_eq_true_eq] at hq ⊢
    exact compo_mono hsub p q hq
  have h2 : (Sa.filter (fun q => decide (q ∈ compo Sb p))).Sublist
      (Sb.filter (fun q => decide (q ∈ compo Sb p))) :=
    List.Sublist.filter _ hsub
  exact Nat.le_trans h1.length_le h2.length_le

/-- Helper: every region area of the smaller image is bounded by a region
area of the larger image. -/
theorem areasOfImage_le {a b : Image} (h : ImageLE a b) :
    ∀ ar ∈ areasOfImage a, ∃ ar2 ∈ areasOfImage b, ar ≤ ar2 := by
  intro ar har
  unfold areasOfImage compsOf at har ⊢
  rcases List.mem_map.1 har with ⟨c, hc, rfl⟩
  rw [List.mem_dedup] at hc
  rcases List.mem_map.1 hc with ⟨p, hp, rfl⟩
  have hsub := fgList_sublist h
  refine ⟨(compFilter (fgList b) p).length, ?_, compFilter_le hsub p⟩
  refine List.mem_map.2 ⟨compFilter (fgList b) p, ?_, rfl⟩
  rw [List.mem_dedup]
  exact List.mem_map.2 ⟨p, hsub.subset hp, rfl⟩

/-- Claim C7: for a fixed batch, get_max_area is monotonically
non-increasing in the threshold: whenever both calls return a value, the
value at the higher threshold is no larger. -/
theorem C7_get_max_area_antitone (b : Batch) (τ1 τ2 : Int) (hτ : τ1 ≤ τ2)
    (m1 m2 : Nat) (h1 : get_max_area b τ1 = some m1)
    (h2 : get_max_area b τ2 = some m2) : m2 ≤ m1 := by
  unfold get_max_area at h1 h2
  have key : ∀ ar ∈ areasFlat b τ2, ∃ ar2 ∈ areasFlat b τ1, ar ≤ ar2 := by
    intro ar har
    unfold areasFlat label_images filter_median_images threshold_images
      at har ⊢
    simp only [List.map_map] at har ⊢
    rw [List.mem_flatten] at har
    rcases har with ⟨al, hal, harin⟩
    rcases List.mem_map.1 hal with ⟨img, himg, rfl⟩
    have hLE : ImageLE (mBlurImage (thImage τ2 img))
        (mBlurImage (thImage τ1 img)) :=
      mBlur_le (thImage_bin τ2 img) (thImage_bin τ1 img) (thImage_le hτ img)
    have harin2 : ar ∈ areasOfImage (mBlurImage (thImage τ2 img)) := by
      simpa using harin
    rcases areasOfImage_le hLE ar harin2 with ⟨ar2, har2, hle⟩
    refine ⟨ar2, ?_, hle⟩
    rw [List.mem_flatten]
    refine ⟨areasOfImage (mBlurImage (thImage τ1 img)), ?_, har2⟩
    refine List.mem_map.2 ⟨img, himg, ?_⟩
    rfl
  have hm2 := npAmax_mem _ _ h2
  rcases key m2 hm2 with ⟨ar2, har2, hle⟩
  exact Nat.le_trans hle (npAmax_ge _ _ _ h1 har2)

/-- Claim C7 witness: a concrete batch with maxima defined at two ordered
thresholds. -/
theorem C7_witness :
    (10 : Int) ≤ 100 ∧ get_max_area [[[200]]] 10 = some 1 ∧
      get_max_area [[[200]]] 100 = some 1 ∧ (1 : Nat) ≤ 1 :=
  ⟨by decide, by decide, by decide,
    C7_get_max_area_antitone [[[200]]] 10 100 (by decide) 1 1 (by decide)
      (by decide)⟩

/-- The bin edges of np.histogram with an integer bin count and an
explicit range: nbins plus one equally spaced boundaries. -/
def histEdges (lo hi : ℚ) (nbins : Nat) : List ℚ :=
  (List.range (nbins + 1)).map (fun (k : Nat) =>
    lo + (hi - lo) * (k : ℚ) / nbins)

/-- Membership of a value in bin k of np.histogram: every bin is closed
on the left and open on the right, except the last bin, which is closed
on both sides. -/
def binPred (lo hi : ℚ) (nbins k : Nat) (a : Nat) : Bool :=
  if k + 1 = nbins then
    decide (lo + (hi - lo) * k / nbins ≤ (a : ℚ)) && decide ((a : ℚ) ≤ hi)
  else
    decide (lo + (hi - lo) * k / nbins ≤ (a : ℚ)) &&
      decide ((a : ℚ) < lo + (hi - lo) * (k + 1) / nbins)

/-- The per-bin raw counts of np.histogram. -/
def binCounts (xs : List Nat) (lo hi : ℚ) (nbins : Nat) : List Nat :=
  (List.range nbins).map (fun k => xs.countP (binPred lo hi nbins k))

/-- The density values of np.histogram with density=True: each raw count
divided by the total in-range count times the bin width; when the total
is zero numpy emits non-finite values with a warning, modeled by none. -/
def histDensity (xs : List Nat) (lo hi : ℚ) (nbins : Nat) :
    List (Option ℚ) :=
  (binCounts xs lo hi nbins).map (fun (c : Nat) =>
    npDivQ (c : ℚ)
      (((binCounts xs lo hi nbins).sum : ℚ) * ((hi - lo) / nbins)))

/-- np.histogram with density=True over an explicit range: the density
values and the bin edges. -/
def np_histogram_density (xs : List Nat) (nbins : Nat) (lo hi : ℚ) :
    List (Option ℚ) × List ℚ :=
  (histDensity xs lo hi nbins, histEdges lo hi nbins)

/-- np.arange(lo, hi + 1) over integers: lo, lo + 1, ..., hi. -/
def intRange (lo hi : Int) : List Int :=
  (List.range (hi + 1 - lo).toNat).map (fun (k : Nat) => lo + (k : Int))

/-- Embedding of get_area_size_counts_multiple_thresholds
(inspection.py): the bin range is fixed once from get_max_area at th_min;
every threshold of the sweep is binned with that same range into nbins
bins with density normalization; the returned edges come from the last
loop iteration, the one at th_max.  The call fails when get_max_area
fails (no regions at th_min) and when the threshold range is empty (the
loop never runs and the edges name is unbound). -/
def get_area_size_counts_multiple_thresholds (resmaps : Batch)
    (th_min th_max : Int) (nbins : Nat) :
    Option (List (List (Option ℚ)) × List ℚ) :=
  (get_max_area resmaps th_min).bind (fun max_area =>
    if th_max < th_min then none
    else some
      ((intRange th_min th_max).map (fun t =>
        (np_histogram_density (areasFlat resmaps t) nbins (1/2)
          ((max_area : ℚ) + 1/2)).1),
       (np_histogram_density (areasFlat resmaps th_max) nbins (1/2)
          ((max_area : ℚ) + 1/2)).2))

/-- Helper: getD through a map over a range. -/
theorem getD_range_map {α : Type} (f : Nat → α) (n i : Nat) (d : α) :
    ((List.range n).map f).getD i d = if i < n then f i else d := by
  rw [List.getD_eq_getElem?_getD, List.getElem?_map]
  by_cases h : i < n
  · rw [List.getElem?_range h, if_pos h]
    rfl
  · rw [List.getElem?_eq_none, if_neg h]
    · rfl
    · rw [List.length_range]
      omega

/-- Helper: the density entry of bin k is the raw count of that bin
normalized by total count times bin width. -/
theorem histDensity_getD (xs : List Nat) (lo hi : ℚ) (n k : Nat)
    (hk : k < n) :
    (histDensity xs lo hi n).getD k none =
      npDivQ ((xs.countP (binPred lo hi n k) : ℚ))
        (((binCounts xs lo hi n).sum : ℚ) * ((hi - lo) / n)) := by
  unfold histDensity binCounts
  rw [List.map_map, getD_range_map, if_pos hk]
  rfl

/-- Claim C3: the sweep bins every threshold of [th_min, th_max] with the
same nbins equal-width bin edges spanning 0.5 to max area at th_min plus
0.5, and every histogram entry is a density, a count normalized by total
count times bin width, not a raw count. -/
theorem C3_sweep_fixed_bins_density (b : Batch) (th_min th_max : Int)
    (nbins M : Nat) (cs : List (List (Option ℚ))) (es : List ℚ)
    (hn : 0 < nbins) (hle : th_min ≤ th_max)
    (hM : get_max_area b th_min = some M)
    (hsw : get_area_size_counts_multiple_thresholds b th_min th_max nbins =
      some (cs, es)) :
    es = histEdges (1/2) ((M : ℚ) + 1/2) nbins ∧
      (∀ k, k < nbins →
        es.getD (k + 1) 0 - es.getD k 0 = (M : ℚ) / nbins) ∧
      cs = (intRange th_min th_max).map (fun t =>
        histDensity (areasFlat b t) (1/2) ((M : ℚ) + 1/2) nbins) ∧
      (∀ t ∈ intRange th_min th_max, ∀ k, k < nbins →
        (histDensity (areasFlat b t) (1/2)
            ((M : ℚ) + 1/2) nbins).getD k none =
          npDivQ ((areasFlat b t).countP
              (binPred (1/2) ((M : ℚ) + 1/2) nbins k) : ℚ)
            (((binCounts (areasFlat b t) (1/2)
                ((M : ℚ) + 1/2) nbins).sum : ℚ) *
              (((M : ℚ) + 1/2 - 1/2) / nbins))) := by
  unfold get_area_size_counts_multiple_thresholds at hsw
  rw [hM, Option.some_bind, if_neg (not_lt.2 hle)] at hsw
  have hpair := Option.some.inj hsw
  rw [Prod.mk.injEq] at hpair
  obtain ⟨hcs, hes⟩ := hpair
  have h1 : es = histEdges (1/2) ((M : ℚ) + 1/2) nbins := by
    rw [← hes]
    rfl
  refine ⟨h1, ?_, ?_, ?_⟩
  · intro k hk
    rw [h1]
    unfold histEdges
    rw [getD_range_map, getD_range_map, if_pos (by omega),
      if_pos (by omega)]
    have hne : (nbins : ℚ) ≠ 0 := Nat.cast_ne_zero.2 (by omega)
    field_simp
    ring
  · rw [← hcs]
    rfl
  · intro t _ k hk
    exact histDensity_getD (areasFlat b t) (1/2) ((M : ℚ) + 1/2) nbins k hk

/-- Claim C3 witness: a one-pixel batch swept from threshold 10 to 11
with two bins. -/
theorem C3_witness :
    (0 < 2 ∧ (10 : Int) ≤ 11 ∧ get_max_area [[[200]]] 10 = some 1) ∧
      ∃ cs es,
        get_area_size_counts_multiple_thresholds [[[200]]] 10 11 2 =
          some (cs, es) ∧
        es = histEdges (1/2) (((1 : Nat) : ℚ) + 1/2) 2 ∧
        cs = (intRange 10 11).map (fun t =>
          histDensity (areasFlat [[[200]]] t) (1/2)
            (((1 : Nat) : ℚ) + 1/2) 2) := by
  have hM : get_max_area [[[200]]] 10 = some 1 := by decide
  refine ⟨⟨by decide, by decide, hM⟩, ?_⟩
  have hsw : get_area_size_counts_multiple_thresholds [[[200]]] 10 11 2 =
      some
        ((intRange 10 11).map (fun t =>
          (np_histogram_density (areasFlat [[[200]]] t) 2 (1/2)
            (((1 : Nat) : ℚ) + 1/2)).1),
         (np_histogram_density (areasFlat [[[200]]] 11) 2 (1/2)
            (((1 : Nat) : ℚ) + 1/2)).2) := by
    unfold get_area_size_counts_multiple_thresholds
    rw [hM, Option.some_bind, if_neg (by decide)]
  have hall := C3_sweep_fixed_bins_density [[[200]]] 10 11 2 1 _ _
    (by decide) (by decide) hM hsw
  exact ⟨_, _, hsw, hall.1, hall.2.2.1⟩
